import Mathlib

/-!
# Verification of the `todo` CLI task store (`src/main.rs`)

A shallow embedding of the store logic of the `todo` command-line tool:
the `Todo` record, the `Todos` task list, and the operations `read`,
`save`, `add`, `delete`, `done`, `clear`.  File contents are modelled as
the `String` read from / written to the task file; `BufRead::lines` is
modelled by `rustLines`, `str::split(',')` by `splitComma`, and
`i32::from_str` (used by `add` through `parse().unwrap()`) by `parseI32`.
Fallible operations (Rust panics / `anyhow` errors) return `Option` /
`Except String`.
-/

/-- One task record; all five fields are stored as strings, exactly as in
the Rust struct `Todo`. -/
structure Todo where
  id : String
  date : String
  title : String
  url : String
  done : String
deriving Repr, DecidableEq

/-- The task list: column headers plus the ordered record sequence
(Rust struct `Todos`). -/
structure Todos where
  headers : List String
  records : List Todo
deriving Repr, DecidableEq

/-- The sentinel written into the `done` field by `Todos::done`.  The
source file contains the literal bytes `C3 A2 C5 93 E2 80 9C`, i.e. the
three characters U+00E2, U+0153, U+201C (a double-encoded check mark). -/
def checkMark : String := "âœ“"

/-- Model of `str::split(c)`: splits a character list at every occurrence of `c`;
always returns at least one (possibly empty) piece. -/
def splitOnChar (c : Char) : List Char → List (List Char)
  | [] => [[]]
  | x :: xs =>
    let r := splitOnChar c xs
    if x = c then [] :: r
    else (x :: r.headD []) :: r.tail

/-- Model of `Vec::join(c)`: interleaves the separator character between the pieces. -/
def joinWith (c : Char) : List (List Char) → List Char
  | [] => []
  | [x] => x
  | x :: xs => x ++ c :: joinWith c xs

/-- Model of `b.split(',')` followed by collecting the pieces into strings
(`Todos::read`, line 193). -/
def splitComma (s : String) : List String :=
  (splitOnChar ',' s.data).map String.mk

/-- Strip one trailing carriage return, as `BufRead::lines` does on every
newline-terminated line. -/
def stripCRChars (l : List Char) : List Char :=
  if l.getLast? = some '\r' then l.dropLast else l

/-- Model of `BufRead::lines` on the full file contents: split at `'\n'`; every
piece before a `'\n'` loses one trailing `'\r'`; a final empty piece
(file ending in a newline, or empty file) yields no line; a final
nonempty piece (no terminating newline) keeps a trailing `'\r'`. -/
def rustLines (s : String) : List String :=
  match (splitOnChar '\n' s.data).getLast? with
  | none => []
  | some [] =>
    ((splitOnChar '\n' s.data).dropLast).map (fun l => String.mk (stripCRChars l))
  | some l =>
    ((splitOnChar '\n' s.data).dropLast).map (fun l => String.mk (stripCRChars l))
      ++ [String.mk l]

/-- Model of `i32::from_str`: optional sign, then a nonempty run of decimal digits,
rejected outside the `i32` range. -/
def digitsToNat? (l : List Char) : Option Nat :=
  if l = [] ∨ l.any (fun c => !c.isDigit) then none
  else some (l.foldl (fun a c => a * 10 + (c.toNat - 48)) 0)

/-- Parse a string as a Rust `i32` (`"-5"`, `"+7"`, `"12"`; `none` on
empty input, non-digits, or overflow). -/
def parseI32 (s : String) : Option Int :=
  match s.data with
  | [] => none
  | c :: rest =>
    if c = '-' then
      match digitsToNat? rest with
      | none => none
      | some n => if (n : Int) ≤ 2147483648 then some (-(n : Int)) else none
    else if c = '+' then
      match digitsToNat? rest with
      | none => none
      | some n => if (n : Int) ≤ 2147483647 then some ((n : Int)) else none
    else
      match digitsToNat? (c :: rest) with
      | none => none
      | some n => if (n : Int) ≤ 2147483647 then some ((n : Int)) else none

/-- Two's-complement wrap-around into the `i32` range (the release-mode
semantics of `last_id + 1`). -/
def wrapI32 (n : Int) : Int := (n + 2147483648) % 4294967296 - 2147483648

/-- Fuelled helper for `natDigits`; the fuel only drives the structural
recursion and `n + 1` units always suffice. -/
def natDigitsAux : Nat → Nat → List Char
  | 0, _ => []
  | fuel + 1, n =>
    if n < 10 then [Char.ofNat (48 + n)]
    else natDigitsAux fuel (n / 10) ++ [Char.ofNat (48 + n % 10)]

/-- The decimal digits of a natural number, most significant first. -/
def natDigits (n : Nat) : List Char := natDigitsAux (n + 1) n

/-- Model of the `Display` / `to_string` form of an `i32`: minimal decimal form, `'-'` sign for
negative numbers. -/
def intToString (n : Int) : String :=
  if n < 0 then String.mk ('-' :: natDigits n.natAbs)
  else String.mk (natDigits n.natAbs)

/-- Model of `Todo::to_csv`: the five fields joined with commas. -/
def Todo.to_csv (r : Todo) : String :=
  String.mk (joinWith ',' [r.id.data, r.date.data, r.title.data, r.url.data, r.done.data])

/-- Model of `Todos::to_vec`: every record rendered as its CSV line. -/
def Todos.to_vec (t : Todos) : List String :=
  t.records.map Todo.to_csv

/-- The string `Todos::save` writes to the task file:
`format!("{}\n{}", headers.join(","), to_vec().join("\n"))`. -/
def Todos.saveString (t : Todos) : String :=
  String.mk (joinWith ',' (t.headers.map String.data) ++
    '\n' :: joinWith '\n' ((t.to_vec).map String.data))

/-- Parse one non-header line of the task file: `v[0]` … `v[4]` of the
comma-split line.  Indexing panics (`none`) when the line has fewer than
five fields; extra fields are ignored. -/
def parseRecord (line : String) : Option Todo :=
  match splitComma line with
  | v0 :: v1 :: v2 :: v3 :: v4 :: _ => some ⟨v0, v1, v2, v3, v4⟩
  | _ => none

/-- The record lines parsed in order (`bufs[1..].iter().map(...)
.collect()`); the whole collection fails as soon as one line does. -/
def parseRecords : List String → Option (List Todo)
  | [] => some []
  | l :: ls =>
    match parseRecord l with
    | none => none
    | some r =>
      match parseRecords ls with
      | none => none
      | some rs => some (r :: rs)

/-- Model of `Todos::read` on the given file contents.  The first line is the
header row (a default header is used on an empty file); all later lines
are parsed as records when there is more than one line.  `none` models
the panic on a record line with fewer than five fields. -/
def Todos.readString (content : String) : Option Todos :=
  match (if (rustLines content).length > 1
         then parseRecords ((rustLines content).drop 1)
         else some []) with
  | none => none
  | some records =>
    some ⟨(match (rustLines content).head? with
           | some h => splitComma h
           | none => ["id", "date", "title", "url", "done"]), records⟩

/-- Model of `Iterator::position` applied to the first record with the given id
(`Todos::delete`, line 259). -/
def positionId (id : String) : List Todo → Option Nat
  | [] => none
  | r :: rs => if r.id = id then some 0 else (positionId id rs).map (· + 1)

/-- Model of `iter_mut().find` applied to the first record with the given id
(`Todos::done`, line 246). -/
def findId (id : String) : List Todo → Option Todo
  | [] => none
  | r :: rs => if r.id = id then some r else findId id rs

/-- The record sequence after `Todos::done` writes the check mark through
the found mutable reference: the first record with the given id gets
`done := checkMark`, everything else is untouched. -/
def doneFirst (id : String) : List Todo → List Todo
  | [] => []
  | r :: rs => if r.id = id then { r with done := checkMark } :: rs
               else r :: doneFirst id rs

/-- Model of `Todos::done`: find the record with the id (first match), fail with
the `anyhow` error when absent, otherwise set its `done` field. -/
def Todos.done (t : Todos) (id : String) : Except String Todos :=
  match findId id t.records with
  | none => .error "The specified ID does not exist"
  | some _ => .ok ⟨t.headers, doneFirst id t.records⟩

/-- Model of `Todos::delete`: position of the record with the id (first match),
fail with the `anyhow` error when absent, otherwise `Vec::remove` it. -/
def Todos.delete (t : Todos) (id : String) : Except String Todos :=
  match positionId id t.records with
  | none => .error "The specified ID does not exist"
  | some i => .ok ⟨t.headers, t.records.eraseIdx i⟩

/-- Model of `Todos::add`: `last_id` is the last record's id parsed as `i32`
(`0` on an empty list; `none` models the `unwrap` panic on a parse
failure), and the pushed record carries id `last_id + 1` and an empty
`done` field. -/
def Todos.add (t : Todos) (date title url : String) : Option Todos :=
  let last_id? : Option Int :=
    match t.records.getLast? with
    | some l => parseI32 l.id
    | none => some 0
  match last_id? with
  | none => none
  | some last_id =>
    some ⟨t.headers,
      t.records ++ [Todo.mk (intToString (wrapI32 (last_id + 1))) date title url ""]⟩

/-- Model of `Todos::clear`: the record sequence becomes empty. -/
def Todos.clear (t : Todos) : Todos :=
  ⟨t.headers, []⟩

/-! ## Example lists used by the witnesses and counterexamples -/

/-- A two-task example list (the spec's §8 example). -/
def sampleTodos : Todos :=
  ⟨["id", "date", "title", "url", "done"],
   [⟨"1", "", "buy milk", "", ""⟩, ⟨"2", "", "call mom", "", ""⟩]⟩

/-- The list `sampleTodos` after `done 1`. -/
def sampleMarked : Todos :=
  ⟨["id", "date", "title", "url", "done"],
   [⟨"1", "", "buy milk", "", checkMark⟩, ⟨"2", "", "call mom", "", ""⟩]⟩

/-- A list with a duplicated id. -/
def sampleDup : Todos :=
  ⟨["id", "date", "title", "url", "done"],
   [⟨"1", "", "a", "", ""⟩, ⟨"1", "", "b", "", ""⟩]⟩

/-- A list whose ids are not in increasing order: the last id is not the
maximum. -/
def sampleDescend : Todos :=
  ⟨["id", "date", "title", "url", "done"],
   [⟨"3", "", "a", "", ""⟩, ⟨"2", "", "b", "", ""⟩]⟩

/-- The id assignment the spec claims, in the spec's words: one more than
the maximum of the existing ids, with default `0` on an empty list (ids
that do not parse count as `0`).  Used only to compare the claim against
what `Todos.add` actually does. -/
def specNextId (t : Todos) : Int :=
  (t.records.foldl (fun a r => max a ((parseI32 r.id).getD 0)) 0) + 1

/-- A field that survives the CSV format unchanged: it contains neither
the comma delimiter nor a newline nor a carriage return. -/
abbrev cleanField (s : String) : Prop :=
  ',' ∉ s.data ∧ '\n' ∉ s.data ∧ '\r' ∉ s.data

/-- A list whose only record has a newline — but no comma — inside its
title. -/
def sampleNewline : Todos :=
  ⟨["h"], [⟨"1", "", "a\nb", "", ""⟩]⟩

/-! ## Helper lemmas on the first-match operations -/

/-- Lookup by `find` misses exactly when no record matches. -/
theorem findId_eq_none (id : String) (l : List Todo) (h : ∀ r ∈ l, r.id ≠ id) :
    findId id l = none := by
  induction l with
  | nil => rfl
  | cons a as ih =>
    have ha := h a (by simp)
    simp only [findId, if_neg ha]
    exact ih fun r hr => h r (by simp [hr])

/-- Lookup by `position` misses exactly when no record matches. -/
theorem positionId_eq_none (id : String) (l : List Todo) (h : ∀ r ∈ l, r.id ≠ id) :
    positionId id l = none := by
  induction l with
  | nil => rfl
  | cons a as ih =>
    have ha := h a (by simp)
    simp only [positionId, if_neg ha]
    rw [ih fun r hr => h r (by simp [hr])]
    rfl

/-- Decomposition of a record list at the first record carrying the given
id: it fixes the value of `position`, `find`, `Vec::remove` at that
position, and the in-place `done` update at once. -/
theorem first_match_decomp (id : String) (l : List Todo) (h : ∃ r ∈ l, r.id = id) :
    ∃ l1 r l2, l = l1 ++ r :: l2 ∧ r.id = id ∧ (∀ r' ∈ l1, r'.id ≠ id) ∧
      positionId id l = some l1.length ∧ findId id l = some r ∧
      l.eraseIdx l1.length = l1 ++ l2 ∧
      doneFirst id l = l1 ++ { r with done := checkMark } :: l2 := by
  induction l with
  | nil => simp at h
  | cons a as ih =>
    by_cases ha : a.id = id
    · exact ⟨[], a, as, rfl, ha, by simp, by simp [positionId, ha],
        by simp [findId, ha], by simp, by simp [doneFirst, ha]⟩
    · have h' : ∃ r ∈ as, r.id = id := by
        obtain ⟨r, hr, hid⟩ := h
        rcases List.mem_cons.mp hr with rfl | hmem
        · exact absurd hid ha
        · exact ⟨r, hmem, hid⟩
      obtain ⟨l1, r, l2, e1, e2, e3, e4, e5, e6, e7⟩ := ih h'
      refine ⟨a :: l1, r, l2, by simp [e1], e2, ?_, ?_, ?_, ?_, ?_⟩
      · intro r' hr'
        rcases List.mem_cons.mp hr' with rfl | hm
        · exact ha
        · exact e3 r' hm
      · simp [positionId, ha, e4]
      · simp [findId, ha, e5]
      · simp [e6]
      · simp [doneFirst, ha, e7]

/-- Applying `doneFirst` twice is the same as once: the first matching
record keeps its id, is found again, and rewriting its `done` field with
the same sentinel changes nothing. -/
theorem doneFirst_doneFirst (id : String) (l : List Todo) :
    doneFirst id (doneFirst id l) = doneFirst id l := by
  induction l with
  | nil => rfl
  | cons a as ih =>
    by_cases ha : a.id = id
    · simp [doneFirst, ha]
    · simp [doneFirst, ha, ih]

/-- Lookup by `find` still succeeds after the `done` update (the update does not
touch any id). -/
theorem findId_doneFirst (id : String) (l : List Todo) (r : Todo)
    (h : findId id l = some r) :
    findId id (doneFirst id l) = some { r with done := checkMark } := by
  induction l with
  | nil => simp [findId] at h
  | cons a as ih =>
    by_cases ha : a.id = id
    · simp only [findId, if_pos ha] at h
      injection h with h
      subst h
      simp [findId, doneFirst, ha]
    · simp only [findId, if_neg ha] at h
      simp [findId, doneFirst, ha, ih h]

/-- The `done` update never changes the id column. -/
theorem map_id_doneFirst (id : String) (l : List Todo) :
    (doneFirst id l).map Todo.id = l.map Todo.id := by
  induction l with
  | nil => rfl
  | cons a as ih =>
    by_cases ha : a.id = id
    · simp [doneFirst, ha]
    · simp [doneFirst, ha, ih]

/-! ## The claims -/

/-- Claim C5. For every task list, regardless of its prior contents,
`clear()` yields a list whose record sequence is empty. -/
theorem clear_empties_records (t : Todos) : (t.clear).records = [] := rfl

/-- Claim C3. `delete(id)` removes exactly one task (the first whose id
matches) when some record has that id, and returns the "not found" error
— leaving the list completely unchanged, since the error branch never
touches the records — when no record has that id. -/
theorem delete_removes_exactly_one (t : Todos) (id : String) :
    ((∃ r ∈ t.records, r.id = id) →
      ∃ l1 r l2, t.records = l1 ++ r :: l2 ∧ r.id = id ∧ (∀ r' ∈ l1, r'.id ≠ id) ∧
        t.delete id = .ok ⟨t.headers, l1 ++ l2⟩)
    ∧ ((∀ r ∈ t.records, r.id ≠ id) →
        t.delete id = .error "The specified ID does not exist") := by
  constructor
  · intro h
    obtain ⟨l1, r, l2, e1, e2, e3, e4, _, e6, _⟩ := first_match_decomp id t.records h
    exact ⟨l1, r, l2, e1, e2, e3, by simp [Todos.delete, e4, e6]⟩
  · intro h
    simp [Todos.delete, positionId_eq_none id t.records h]

/-- Witness for C3: on the two-task example list, deleting id `"1"`
removes exactly that record, and deleting the absent id `"9"` fails. -/
theorem delete_removes_exactly_one_witness :
    (∃ l1 r l2, sampleTodos.records = l1 ++ r :: l2 ∧ r.id = "1" ∧
      (∀ r' ∈ l1, r'.id ≠ "1") ∧
      sampleTodos.delete "1" = .ok ⟨sampleTodos.headers, l1 ++ l2⟩)
    ∧ sampleTodos.delete "9" = .error "The specified ID does not exist" :=
  ⟨(delete_removes_exactly_one sampleTodos "1").1 (by decide),
   (delete_removes_exactly_one sampleTodos "9").2 (by decide)⟩

/-- Claim C4. When some record has the given id, `done(id)` rewrites only
the first such record, and only its `done` field (set to the check-mark
sentinel); every record before and after it is unchanged.  When no record
has the id, it fails with the "not found" error and the records are
untouched. -/
theorem done_marks_only_target (t : Todos) (id : String) :
    ((∃ r ∈ t.records, r.id = id) →
      ∃ l1 r l2, t.records = l1 ++ r :: l2 ∧ r.id = id ∧ (∀ r' ∈ l1, r'.id ≠ id) ∧
        t.done id = .ok ⟨t.headers, l1 ++ { r with done := checkMark } :: l2⟩)
    ∧ ((∀ r ∈ t.records, r.id ≠ id) →
        t.done id = .error "The specified ID does not exist") := by
  constructor
  · intro h
    obtain ⟨l1, r, l2, e1, e2, e3, _, e5, _, e7⟩ := first_match_decomp id t.records h
    exact ⟨l1, r, l2, e1, e2, e3, by simp [Todos.done, e5, e7]⟩
  · intro h
    simp [Todos.done, findId_eq_none id t.records h]

/-- Witness for C4: marking id `"1"` done on the example list rewrites
only that record's `done` field; id `"9"` fails. -/
theorem done_marks_only_target_witness :
    (∃ l1 r l2, sampleTodos.records = l1 ++ r :: l2 ∧ r.id = "1" ∧
      (∀ r' ∈ l1, r'.id ≠ "1") ∧
      sampleTodos.done "1"
        = .ok ⟨sampleTodos.headers, l1 ++ { r with done := checkMark } :: l2⟩)
    ∧ sampleTodos.done "9" = .error "The specified ID does not exist" :=
  ⟨(done_marks_only_target sampleTodos "1").1 (by decide),
   (done_marks_only_target sampleTodos "9").2 (by decide)⟩

/-- Claim C8. `done` is idempotent, not a toggle: a second `done(id)` on a
list on which `done(id)` just succeeded succeeds again and returns the
same list, so an already-set completion marker is never cleared. -/
theorem done_idempotent (t : Todos) (id : String) (t' : Todos)
    (h : t.done id = .ok t') : t'.done id = .ok t' := by
  unfold Todos.done at h ⊢
  cases hf : findId id t.records with
  | none => simp [hf] at h
  | some r =>
    simp only [hf] at h
    cases h
    simp [findId_doneFirst id t.records r hf, doneFirst_doneFirst]

/-- Witness for C8: completing task `"1"` twice equals completing it
once on the example list. -/
theorem done_idempotent_witness :
    sampleTodos.done "1" = .ok sampleMarked
    ∧ sampleMarked.done "1" = .ok sampleMarked :=
  ⟨rfl, done_idempotent sampleTodos "1" sampleMarked rfl⟩

/-- Claim C9. Every mutating operation — `add`, `delete`, `done`, `clear`
— leaves the header row unchanged; only the record sequence changes. -/
theorem mutations_preserve_headers (t : Todos) (id date title url : String) :
    (∀ t', t.add date title url = some t' → t'.headers = t.headers)
    ∧ (∀ t', t.delete id = .ok t' → t'.headers = t.headers)
    ∧ (∀ t', t.done id = .ok t' → t'.headers = t.headers)
    ∧ (t.clear).headers = t.headers := by
  refine ⟨?_, ?_, ?_, rfl⟩
  · intro t' h
    unfold Todos.add at h
    cases hl : t.records.getLast? with
    | none => simp [hl] at h; simp [← h]
    | some l =>
      simp only [hl] at h
      cases hp : parseI32 l.id with
      | none => simp [hp] at h
      | some n => simp [hp] at h; simp [← h]
  · intro t' h
    unfold Todos.delete at h
    cases hp : positionId id t.records with
    | none => simp [hp] at h
    | some i => simp [hp] at h; simp [← h]
  · intro t' h
    unfold Todos.done at h
    cases hf : findId id t.records with
    | none => simp [hf] at h
    | some r => simp [hf] at h; simp [← h]

/-- Witness for C9: all four operations, applied to the example list,
return lists with the same header row. -/
theorem mutations_preserve_headers_witness :
    (Todos.mk sampleTodos.headers
      (sampleTodos.records ++ [⟨"3", "", "x", "", ""⟩])).headers = sampleTodos.headers
    ∧ (Todos.mk sampleTodos.headers [⟨"2", "", "call mom", "", ""⟩]).headers
        = sampleTodos.headers
    ∧ sampleMarked.headers = sampleTodos.headers
    ∧ (sampleTodos.clear).headers = sampleTodos.headers :=
  ⟨(mutations_preserve_headers sampleTodos "1" "" "x" "").1 _ (by decide),
   (mutations_preserve_headers sampleTodos "1" "" "x" "").2.1 _ rfl,
   (mutations_preserve_headers sampleTodos "1" "" "x" "").2.2.1 sampleMarked rfl,
   (mutations_preserve_headers sampleTodos "1" "" "x" "").2.2.2⟩

/-- Claim C10. When at least two records share the given id, `delete(id)`
removes exactly the earliest such record and `done(id)` marks exactly the
earliest such record; the later records with that id are untouched (they
stay, verbatim, in the tail `l2`, which still contains a match). -/
theorem duplicate_ids_first_match (t : Todos) (id : String)
    (h : 2 ≤ t.records.countP (fun r => r.id == id)) :
    ∃ l1 r l2, t.records = l1 ++ r :: l2 ∧ r.id = id ∧ (∀ r' ∈ l1, r'.id ≠ id) ∧
      (∃ r' ∈ l2, r'.id = id) ∧
      t.delete id = .ok ⟨t.headers, l1 ++ l2⟩ ∧
      t.done id = .ok ⟨t.headers, l1 ++ { r with done := checkMark } :: l2⟩ := by
  have hex : ∃ r ∈ t.records, r.id = id := by
    have hpos : 0 < t.records.countP (fun r => r.id == id) := by omega
    obtain ⟨r, hr, hid⟩ := List.countP_pos_iff.mp hpos
    exact ⟨r, hr, by simpa using hid⟩
  obtain ⟨l1, r, l2, e1, e2, e3, e4, e5, e6, e7⟩ := first_match_decomp id t.records hex
  have hc1 : l1.countP (fun r => r.id == id) = 0 :=
    List.countP_eq_zero.mpr fun r' hr' => by simpa using e3 r' hr'
  have hc2 : 0 < l2.countP (fun r => r.id == id) := by
    rw [e1, List.countP_append, List.countP_cons_of_pos _ _ (by simpa using e2), hc1] at h
    omega
  obtain ⟨r', hr', hid'⟩ := List.countP_pos_iff.mp hc2
  exact ⟨l1, r, l2, e1, e2, e3, ⟨r', hr', by simpa using hid'⟩,
    by simp [Todos.delete, e4, e6], by simp [Todos.done, e5, e7]⟩

/-- Witness for C10: with two records both carrying id `"1"`, `delete`
and `done` act on the first one only and the second survives. -/
theorem duplicate_ids_first_match_witness :
    ∃ l1 r l2, sampleDup.records = l1 ++ r :: l2 ∧ r.id = "1" ∧
      (∀ r' ∈ l1, r'.id ≠ "1") ∧
      (∃ r' ∈ l2, r'.id = "1") ∧
      sampleDup.delete "1" = .ok ⟨sampleDup.headers, l1 ++ l2⟩ ∧
      sampleDup.done "1"
        = .ok ⟨sampleDup.headers, l1 ++ { r with done := checkMark } :: l2⟩ :=
  duplicate_ids_first_match sampleDup "1" (by decide)

/-- Claim C1, amended. `add` assigns the new task the id
*last record's id* (parsed as an `i32`, `0` for an empty list) `+ 1` —
not the maximum id `+ 1`; in particular, adding to an empty list still
assigns id 1.  -/
theorem add_assigns_last_plus_one (t : Todos) (date title url : String) :
    (t.records = [] →
      t.add date title url = some ⟨t.headers, [⟨"1", date, title, url, ""⟩]⟩)
    ∧ (∀ l n, t.records.getLast? = some l → parseI32 l.id = some n →
      t.add date title url = some ⟨t.headers,
        t.records ++ [⟨intToString (wrapI32 (n + 1)), date, title, url, ""⟩]⟩) := by
  constructor
  · intro h
    have h1 : intToString (wrapI32 1) = "1" := rfl
    simp [Todos.add, h, h1]
  · intro l n hl hn
    simp [Todos.add, hl, hn]

/-- Counterexample for C1 as stated: on `sampleDescend` (ids `3, 2`) the
spec's rule `max(existing ids, default 0) + 1` predicts id `"4"`, but
`add` assigns `"3"` (last id `2`, plus one). -/
theorem add_assigns_last_plus_one_counterexample :
    sampleDescend.add "" "c" ""
      = some ⟨sampleDescend.headers, sampleDescend.records ++ [⟨"3", "", "c", "", ""⟩]⟩
    ∧ intToString (specNextId sampleDescend) = "4"
    ∧ ("3" : String) ≠ "4" :=
  ⟨by decide, by decide, by decide⟩

/-- Witness for C1 (amended): adding to an empty list yields id `"1"`,
and adding to the two-task example (last id `"2"`) appends id `2 + 1`. -/
theorem add_assigns_last_plus_one_witness :
    (Todos.mk sampleTodos.headers []).add "" "buy milk" ""
        = some ⟨sampleTodos.headers, [⟨"1", "", "buy milk", "", ""⟩]⟩
    ∧ sampleTodos.add "" "x" ""
        = some ⟨sampleTodos.headers,
            sampleTodos.records ++ [⟨intToString (wrapI32 (2 + 1)), "", "x", "", ""⟩]⟩ :=
  ⟨(add_assigns_last_plus_one (Todos.mk sampleTodos.headers []) "" "buy milk" "").1 rfl,
   (add_assigns_last_plus_one sampleTodos "" "x" "").2 ⟨"2", "", "call mom", "", ""⟩ 2 rfl rfl⟩

/-- Parsing the record lines fails exactly when some line fails. -/
theorem parseRecords_eq_none (ls : List String) :
    parseRecords ls = none ↔ ∃ l ∈ ls, parseRecord l = none := by
  induction ls with
  | nil => simp [parseRecords]
  | cons a as ih =>
    cases h : parseRecord a with
    | none => simp [parseRecords, h]
    | some r =>
      cases h2 : parseRecords as with
      | none => simp [parseRecords, h, h2, ← ih]
      | some rs => simp [parseRecords, h, h2, ← ih]

/-- A line fails to parse exactly when it has fewer than five
comma-separated fields. -/
theorem parseRecord_eq_none_iff (l : String) :
    parseRecord l = none ↔ (splitComma l).length < 5 := by
  unfold parseRecord
  rcases h : splitComma l with _ | ⟨a, _ | ⟨b, _ | ⟨c, _ | ⟨d, _ | ⟨e, rest⟩⟩⟩⟩⟩ <;>
    simp [h]

/-- Claim C6, amended. `read` fails (the indexing panic) exactly when the
file has more than one line and some non-header line has *fewer* than
five comma-separated fields.  A line with five or more fields is
accepted — the fields beyond the fifth are silently ignored — so there is
error recovery for neither case, but only a short line actually fails. -/
theorem read_fails_iff_short_line (content : String) :
    Todos.readString content = none ↔
      1 < (rustLines content).length ∧
        ∃ l ∈ (rustLines content).drop 1, (splitComma l).length < 5 := by
  have key : (if (rustLines content).length > 1
      then parseRecords ((rustLines content).drop 1)
      else some []) = none ↔
      (1 < (rustLines content).length ∧
        ∃ l ∈ (rustLines content).drop 1, (splitComma l).length < 5) := by
    by_cases hlen : (rustLines content).length > 1
    · rw [if_pos hlen, parseRecords_eq_none]
      simp only [parseRecord_eq_none_iff]
      exact ⟨fun hx => ⟨hlen, hx⟩, fun hx => hx.2⟩
    · rw [if_neg hlen]
      simp [hlen]
  unfold Todos.readString
  cases hx : (if (rustLines content).length > 1
      then parseRecords ((rustLines content).drop 1)
      else some []) with
  | none => exact iff_of_true rfl (key.mp hx)
  | some rs =>
    refine iff_of_false (by simp) fun hr => ?_
    have hcontra := key.mpr hr
    rw [hx] at hcontra
    exact Option.noConfusion hcontra

/-- Counterexample for C6 as stated: a record line with *six* fields — a
field count different from the expected five — does not make `read`
fail; the extra field is ignored. -/
theorem read_accepts_extra_fields :
    (splitComma "1,a,b,c,d,e").length = 6
    ∧ Todos.readString "id,date,title,url,done\n1,a,b,c,d,e"
        = some ⟨["id", "date", "title", "url", "done"], [⟨"1", "a", "b", "c", "d"⟩]⟩ :=
  ⟨by decide, by decide⟩

/-- Data of a rebuilt string is the original character list. -/
theorem data_mk (l : List Char) : (String.mk l).data = l := rfl

/-- A decimal digit character is a digit and its code point is `48 + d`. -/
theorem digitChar_facts (d : Nat) (h : d < 10) :
    (Char.ofNat (48 + d)).isDigit = true ∧ (Char.ofNat (48 + d)).toNat = 48 + d := by
  interval_cases d <;> exact ⟨by decide, by decide⟩

/-- With enough fuel, `natDigitsAux` produces a nonempty all-digit list
whose decimal value, folded onto any accumulator, recovers `n`. -/
theorem natDigitsAux_spec :
    ∀ fuel n, n < fuel →
      natDigitsAux fuel n ≠ [] ∧
      (∀ c ∈ natDigitsAux fuel n, c.isDigit = true) ∧
      ∀ acc : Nat, (natDigitsAux fuel n).foldl (fun a c => a * 10 + (c.toNat - 48)) acc
        = acc * 10 ^ (natDigitsAux fuel n).length + n := by
  intro fuel
  induction fuel with
  | zero => intro n hn; omega
  | succ fuel ih =>
    intro n hn
    by_cases h10 : n < 10
    · refine ⟨by simp [natDigitsAux, h10], ?_, ?_⟩
      · intro c hc
        simp only [natDigitsAux, if_pos h10, List.mem_singleton] at hc
        subst hc
        exact (digitChar_facts n h10).1
      · intro acc
        simp only [natDigitsAux, if_pos h10, List.foldl_cons, List.foldl_nil,
          List.length_singleton, pow_one]
        rw [(digitChar_facts n h10).2]
        omega
    · have hdiv : n / 10 < fuel := by omega
      obtain ⟨ihne, ihdig, ihfold⟩ := ih (n / 10) hdiv
      have hmod : n % 10 < 10 := Nat.mod_lt _ (by omega)
      refine ⟨by simp [natDigitsAux, h10], ?_, ?_⟩
      · intro c hc
        simp only [natDigitsAux, if_neg h10, List.mem_append, List.mem_singleton] at hc
        rcases hc with hc | hc
        · exact ihdig c hc
        · subst hc
          exact (digitChar_facts _ hmod).1
      · intro acc
        simp only [natDigitsAux, if_neg h10, List.foldl_append, List.foldl_cons,
          List.foldl_nil, List.length_append, List.length_singleton]
        rw [ihfold acc, (digitChar_facts _ hmod).2, pow_succ]
        have h48 : 48 + n % 10 - 48 = n % 10 := by omega
        rw [h48]
        calc (acc * 10 ^ (natDigitsAux fuel (n / 10)).length + n / 10) * 10 + n % 10
            = acc * (10 ^ (natDigitsAux fuel (n / 10)).length * 10)
                + (n / 10 * 10 + n % 10) := by ring
          _ = acc * (10 ^ (natDigitsAux fuel (n / 10)).length * 10) + n := by
              congr 1
              omega

/-- Printing digits never yields the empty list. -/
theorem natDigits_ne_nil (n : Nat) : natDigits n ≠ [] :=
  (natDigitsAux_spec (n + 1) n (Nat.lt_succ_self n)).1

/-- Printing digits yields digit characters only. -/
theorem natDigits_all_digits (n : Nat) : ∀ c ∈ natDigits n, c.isDigit = true :=
  (natDigitsAux_spec (n + 1) n (Nat.lt_succ_self n)).2.1

/-- Reading back the printed digits of `n` yields `n`. -/
theorem digitsToNat?_natDigits (n : Nat) : digitsToNat? (natDigits n) = some n := by
  obtain ⟨hne, hdig, hfold⟩ := natDigitsAux_spec (n + 1) n (Nat.lt_succ_self n)
  unfold digitsToNat? natDigits
  rw [if_neg, hfold 0]
  · simp
  · rintro (h | h)
    · exact hne h
    · obtain ⟨c, hc, hcd⟩ := List.any_eq_true.mp h
      rw [hdig c hc] at hcd
      exact Bool.noConfusion hcd

/-- A digit character is neither the minus nor the plus sign. -/
theorem isDigit_ne_sign (c : Char) (h : c.isDigit = true) : c ≠ '-' ∧ c ≠ '+' := by
  constructor
  · intro he
    rw [he] at h
    exact Bool.noConfusion h
  · intro he
    rw [he] at h
    exact Bool.noConfusion h

/-- Evaluation of `parseI32` on a string starting with the minus sign. -/
theorem parseI32_minus (l : List Char) :
    parseI32 (String.mk ('-' :: l)) =
      match digitsToNat? l with
      | none => none
      | some m => if (m : Int) ≤ 2147483648 then some (-(m : Int)) else none := rfl

/-- Evaluation of `parseI32` on a string starting with the plus sign. -/
theorem parseI32_plus (l : List Char) :
    parseI32 (String.mk ('+' :: l)) =
      match digitsToNat? l with
      | none => none
      | some m => if (m : Int) ≤ 2147483647 then some ((m : Int)) else none := rfl

/-- Evaluation of `parseI32` on a string starting with anything but a sign. -/
theorem parseI32_nosign (c : Char) (l : List Char) (hcm : c ≠ '-') (hcp : c ≠ '+') :
    parseI32 (String.mk (c :: l)) =
      match digitsToNat? (c :: l) with
      | none => none
      | some m => if (m : Int) ≤ 2147483647 then some ((m : Int)) else none := by
  unfold parseI32
  simp only [data_mk]
  rw [if_neg hcm, if_neg hcp]

/-- String eta: rebuilding a string from its characters is the identity. -/
theorem mk_data (s : String) : String.mk s.data = s := rfl

/-- Printing an `i32` and parsing it back is the identity. -/
theorem parseI32_intToString (n : Int) (h1 : -2147483648 ≤ n) (h2 : n ≤ 2147483647) :
    parseI32 (intToString n) = some n := by
  by_cases hn : n < 0
  · unfold intToString
    rw [if_pos hn, parseI32_minus, digitsToNat?_natDigits]
    show (if ((n.natAbs : Int)) ≤ 2147483648 then some (-(n.natAbs : Int)) else none)
      = some n
    rw [if_pos (by omega)]
    congr 1
    omega
  · unfold intToString
    rw [if_neg hn]
    obtain ⟨c, cs, hccs⟩ := List.exists_cons_of_ne_nil (natDigits_ne_nil n.natAbs)
    have hcdig : c.isDigit = true :=
      natDigits_all_digits n.natAbs c (hccs ▸ List.mem_cons_self c cs)
    obtain ⟨hcm, hcp⟩ := isDigit_ne_sign c hcdig
    rw [hccs, parseI32_nosign c cs hcm hcp, ← hccs, digitsToNat?_natDigits]
    show (if ((n.natAbs : Int)) ≤ 2147483647 then some ((n.natAbs : Int)) else none)
      = some n
    rw [if_pos (by omega)]
    congr 1
    omega

/-- Everything `parseI32` accepts lies in the `i32` range. -/
theorem parseI32_bounds (s : String) (n : Int) (h : parseI32 s = some n) :
    -2147483648 ≤ n ∧ n ≤ 2147483647 := by
  rw [← mk_data s] at h
  rcases hd : s.data with _ | ⟨c, rest⟩ <;> rw [hd] at h
  · exact absurd h (by simp [parseI32])
  · by_cases hc : c = '-'
    · subst hc
      rw [parseI32_minus] at h
      rcases hd2 : digitsToNat? rest with _ | m <;> simp only [hd2] at h
      · exact absurd h (by simp)
      · by_cases hm : (m : Int) ≤ 2147483648
        · rw [if_pos hm] at h
          injection h with h
          omega
        · rw [if_neg hm] at h
          exact absurd h (by simp)
    · by_cases hc2 : c = '+'
      · subst hc2
        rw [parseI32_plus] at h
        rcases hd2 : digitsToNat? rest with _ | m <;> simp only [hd2] at h
        · exact absurd h (by simp)
        · by_cases hm : (m : Int) ≤ 2147483647
          · rw [if_pos hm] at h
            injection h with h
            omega
          · rw [if_neg hm] at h
            exact absurd h (by simp)
      · rw [parseI32_nosign c rest hc hc2] at h
        rcases hd2 : digitsToNat? (c :: rest) with _ | m <;> simp only [hd2] at h
        · exact absurd h (by simp)
        · by_cases hm : (m : Int) ≤ 2147483647
          · rw [if_pos hm] at h
            injection h with h
            omega
          · rw [if_neg hm] at h
            exact absurd h (by simp)

/-- Wrap-around is the identity inside the `i32` range. -/
theorem wrapI32_eq_self (n : Int) (h1 : -2147483648 ≤ n) (h2 : n ≤ 2147483647) :
    wrapI32 n = n := by
  unfold wrapI32
  omega

/-- Claim C7, amended. Pairwise-distinct ids are an invariant of
`delete`, `done`, and `clear` unconditionally, but **not** of `add` on
an arbitrary list (see the counterexample): `add` preserves distinctness
provided the last record's id parses as an `i32` that is below
`i32::MAX` and is at least every other parseable id in the list. -/
theorem ops_preserve_distinct_ids (t : Todos) (id date title url : String)
    (hnd : (t.records.map Todo.id).Nodup) :
    (∀ t', t.delete id = .ok t' → (t'.records.map Todo.id).Nodup)
    ∧ (∀ t', t.done id = .ok t' → (t'.records.map Todo.id).Nodup)
    ∧ ((t.clear).records.map Todo.id).Nodup
    ∧ (∀ t' l n, t.records.getLast? = some l → parseI32 l.id = some n →
        n < 2147483647 →
        (∀ r ∈ t.records, ∀ m, parseI32 r.id = some m → m ≤ n) →
        t.add date title url = some t' → (t'.records.map Todo.id).Nodup) := by
  refine ⟨?_, ?_, by simp [Todos.clear], ?_⟩
  · intro t' h
    unfold Todos.delete at h
    cases hp : positionId id t.records <;> rw [hp] at h
    · exact absurd h (by simp)
    · injection h with h
      subst h
      exact hnd.sublist (List.Sublist.map _ (List.eraseIdx_sublist _ _))
  · intro t' h
    unfold Todos.done at h
    cases hf : findId id t.records <;> rw [hf] at h
    · exact absurd h (by simp)
    · injection h with h
      subst h
      show ((doneFirst id t.records).map Todo.id).Nodup
      rw [map_id_doneFirst]
      exact hnd
  · intro t' l n hl hp hlt hbound hadd
    unfold Todos.add at hadd
    simp only [hl, hp] at hadd
    injection hadd with hadd
    subst hadd
    obtain ⟨hb1, hb2⟩ := parseI32_bounds l.id n hp
    have hw : wrapI32 (n + 1) = n + 1 := wrapI32_eq_self _ (by omega) (by omega)
    show ((t.records ++ [Todo.mk (intToString (wrapI32 (n + 1))) date title url ""]).map
      Todo.id).Nodup
    rw [List.map_append, List.nodup_append, hw]
    refine ⟨hnd, by simp, ?_⟩
    intro a ha hb
    simp only [List.map_cons, List.map_nil, List.mem_singleton] at hb
    subst hb
    obtain ⟨r, hr, hrid⟩ := List.mem_map.mp ha
    have hpr : parseI32 r.id = some (n + 1) := by
      rw [hrid, parseI32_intToString (n + 1) (by omega) (by omega)]
    have := hbound r hr (n + 1) hpr
    omega

/-- Counterexample for C7 as stated: `sampleDescend` has pairwise
distinct ids `3, 2`, yet `add` appends a task with id `3` again, so
`add` alone already breaks the claimed invariant. -/
theorem ops_preserve_distinct_ids_counterexample :
    (sampleDescend.records.map Todo.id).Nodup
    ∧ sampleDescend.add "" "c" ""
        = some ⟨sampleDescend.headers, sampleDescend.records ++ [Todo.mk "3" "" "c" "" ""]⟩
    ∧ ¬ ((sampleDescend.records ++ [Todo.mk "3" "" "c" "" ""]).map Todo.id).Nodup :=
  ⟨by decide, by decide, by decide⟩

/-- Witness for C7 (amended): on the example list (ids `1, 2`, last id
maximal) all four operations keep the ids pairwise distinct. -/
theorem ops_preserve_distinct_ids_witness :
    ((Todos.mk sampleTodos.headers [⟨"2", "", "call mom", "", ""⟩]).records.map Todo.id).Nodup
    ∧ ((sampleMarked.records).map Todo.id).Nodup
    ∧ (((sampleTodos.clear).records).map Todo.id).Nodup
    ∧ (((Todos.mk sampleTodos.headers
          (sampleTodos.records ++ [⟨"3", "", "x", "", ""⟩])).records).map Todo.id).Nodup :=
  ⟨(ops_preserve_distinct_ids sampleTodos "1" "" "x" "" (by decide)).1 _ rfl,
   (ops_preserve_distinct_ids sampleTodos "1" "" "x" "" (by decide)).2.1 sampleMarked rfl,
   (ops_preserve_distinct_ids sampleTodos "1" "" "x" "" (by decide)).2.2.1,
   (ops_preserve_distinct_ids sampleTodos "1" "" "x" "" (by decide)).2.2.2 _
     ⟨"2", "", "call mom", "", ""⟩ 2 rfl rfl (by omega)
     (by
       intro r hr m hm
       fin_cases hr
       · have h1 : (1 : Int) = m :=
           Option.some.inj ((show parseI32 "1" = some 1 from rfl).symm.trans hm)
         omega
       · have h2 : (2 : Int) = m :=
           Option.some.inj ((show parseI32 "2" = some 2 from rfl).symm.trans hm)
         omega)
     rfl⟩

/-! ## Split / join lemmas for the round trip -/

/-- Splitting always yields at least one piece. -/
theorem splitOnChar_ne_nil (c : Char) (l : List Char) : splitOnChar c l ≠ [] := by
  cases l with
  | nil => simp [splitOnChar]
  | cons x xs =>
    simp only [splitOnChar]
    split <;> simp

/-- Splitting a list free of the separator yields that one piece. -/
theorem splitOnChar_no_sep (c : Char) (l : List Char) (h : c ∉ l) :
    splitOnChar c l = [l] := by
  induction l with
  | nil => rfl
  | cons x xs ih =>
    simp only [List.mem_cons, not_or] at h
    obtain ⟨hx, hxs⟩ := h
    have hx' : x ≠ c := fun he => hx he.symm
    simp [splitOnChar, ih hxs, hx']

/-- Splitting past the first separator peels off the first piece. -/
theorem splitOnChar_append_cons (c : Char) (x rest : List Char) (hx : c ∉ x) :
    splitOnChar c (x ++ c :: rest) = x :: splitOnChar c rest := by
  induction x with
  | nil => simp [splitOnChar]
  | cons a x' ih =>
    simp only [List.mem_cons, not_or] at hx
    obtain ⟨ha, hx'⟩ := hx
    have ha' : a ≠ c := fun he => ha he.symm
    simp [splitOnChar, ih hx', ha']

/-- Splitting inverts joining when no piece contains the separator. -/
theorem joinWith_split (c : Char) :
    ∀ pieces : List (List Char), pieces ≠ [] → (∀ p ∈ pieces, c ∉ p) →
      splitOnChar c (joinWith c pieces) = pieces := by
  intro pieces
  induction pieces with
  | nil => intro h _; exact absurd rfl h
  | cons p ps ih =>
    intro _ hmem
    cases ps with
    | nil => exact splitOnChar_no_sep c p (hmem p (by simp))
    | cons q qs =>
      rw [show joinWith c (p :: q :: qs) = p ++ c :: joinWith c (q :: qs) from rfl,
        splitOnChar_append_cons c p _ (hmem p (by simp)),
        ih (by simp) (fun r hr => hmem r (by simp [hr]))]

/-- A character different from the separator and absent from every piece
is absent from the join. -/
theorem not_mem_joinWith (x c : Char) (hx : x ≠ c) :
    ∀ pieces : List (List Char), (∀ p ∈ pieces, x ∉ p) → x ∉ joinWith c pieces := by
  intro pieces
  induction pieces with
  | nil => intro _; simp [joinWith]
  | cons p ps ih =>
    intro h
    cases ps with
    | nil => exact h p (by simp)
    | cons q qs =>
      rw [show joinWith c (p :: q :: qs) = p ++ c :: joinWith c (q :: qs) from rfl]
      simp only [List.mem_append, List.mem_cons, not_or]
      exact ⟨h p (by simp), hx, ih (fun r hr => h r (by simp [hr]))⟩

/-- Stripping a carriage return from a line that has none is a no-op. -/
theorem stripCR_no_cr (l : List Char) (h : '\r' ∉ l) : stripCRChars l = l := by
  unfold stripCRChars
  rw [if_neg]
  intro he
  obtain ⟨hne, heq⟩ := List.mem_getLast?_eq_getLast (Option.mem_def.mpr he)
  exact h (by rw [heq]; exact List.getLast_mem hne)

/-- Inversion: `rustLines` undoes `joinWith '\n'` for clean pieces whose last
piece is nonempty. -/
theorem rustLines_join (pieces : List (List Char)) (hne : pieces ≠ [])
    (hlast : pieces.getLast? ≠ some [])
    (hclean : ∀ p ∈ pieces, '\n' ∉ p ∧ '\r' ∉ p) :
    rustLines (String.mk (joinWith '\n' pieces)) = pieces.map String.mk := by
  unfold rustLines
  simp only [data_mk]
  rw [joinWith_split '\n' pieces hne (fun p hp => (hclean p hp).1)]
  obtain ⟨l, hl⟩ : ∃ l, pieces.getLast? = some l :=
    ⟨pieces.getLast hne, List.getLast?_eq_getLast pieces hne⟩
  rcases l with _ | ⟨c, cs⟩
  · exact absurd hl hlast
  · simp only [hl]
    have hstrip : (pieces.dropLast).map (fun l => String.mk (stripCRChars l))
        = (pieces.dropLast).map String.mk :=
      List.map_congr_left fun p hp => by
        rw [stripCR_no_cr p ((hclean p ((List.dropLast_sublist pieces).subset hp)).2)]
    rw [hstrip, show [String.mk (c :: cs)] = List.map String.mk [c :: cs] from rfl,
      ← List.map_append]
    congr 1
    have hg : pieces.getLast hne = c :: cs := by
      have hgl := List.getLast?_eq_getLast pieces hne
      rw [hl] at hgl
      exact (Option.some.inj hgl).symm
    rw [← hg]
    exact List.dropLast_append_getLast hne

/-- A CSV line always has at least the four commas, so it is nonempty. -/
theorem to_csv_ne_nil (r : Todo) : (Todo.to_csv r).data ≠ [] := by
  rw [show (Todo.to_csv r).data
      = r.id.data ++ ',' :: joinWith ',' [r.date.data, r.title.data, r.url.data, r.done.data]
    from rfl]
  simp

/-- Parsing a record's CSV line recovers the record when no field
contains a comma. -/
theorem parseRecord_to_csv (r : Todo)
    (h1 : ',' ∉ r.id.data) (h2 : ',' ∉ r.date.data) (h3 : ',' ∉ r.title.data)
    (h4 : ',' ∉ r.url.data) (h5 : ',' ∉ r.done.data) :
    parseRecord (Todo.to_csv r) = some r := by
  unfold parseRecord splitComma
  rw [show (Todo.to_csv r).data
      = joinWith ',' [r.id.data, r.date.data, r.title.data, r.url.data, r.done.data]
    from rfl]
  rw [joinWith_split ',' _ (by simp) (by
    intro p hp
    simp only [List.mem_cons, List.not_mem_nil, or_false] at hp
    rcases hp with rfl | rfl | rfl | rfl | rfl <;> assumption)]
  simp only [List.map_cons, List.map_nil, mk_data]

/-- One good line extends one good tail. -/
theorem parseRecords_cons (l : String) (ls : List String) (r : Todo) (rs : List Todo)
    (h1 : parseRecord l = some r) (h2 : parseRecords ls = some rs) :
    parseRecords (l :: ls) = some (r :: rs) := by
  simp only [parseRecords, h1, h2]

/-- Parsing the CSV lines of a record list recovers the list when no
field contains a comma. -/
theorem parseRecords_to_csv (rs : List Todo)
    (h : ∀ r ∈ rs, cleanField r.id ∧ cleanField r.date ∧ cleanField r.title ∧
      cleanField r.url ∧ cleanField r.done) :
    parseRecords (rs.map Todo.to_csv) = some rs := by
  induction rs with
  | nil => rfl
  | cons r rs ih =>
    obtain ⟨⟨hid, _, _⟩, ⟨hdate, _, _⟩, ⟨htitle, _, _⟩, ⟨hurl, _, _⟩, ⟨hdone, _, _⟩⟩ :=
      h r (by simp)
    rw [List.map_cons]
    exact parseRecords_cons _ _ r rs
      (parseRecord_to_csv r hid hdate htitle hurl hdone)
      (ih fun r' hr' => h r' (by simp [hr']))

/-- Claim C2, amended. Serializing a task list with `save` and parsing
the result with `read` yields the original list field-for-field, when
the header row is nonempty and no header and no record field contains a
comma, a newline, or a carriage return.  (The comma condition alone — as
the claim states it — is not enough: a field containing a newline breaks
the line structure; see the counterexample.) -/
theorem save_read_roundtrip (t : Todos) (hh : t.headers ≠ [])
    (hhead : ∀ s ∈ t.headers, cleanField s)
    (hrec : ∀ r ∈ t.records, cleanField r.id ∧ cleanField r.date ∧
      cleanField r.title ∧ cleanField r.url ∧ cleanField r.done) :
    Todos.readString t.saveString = some t := by
  have hjn : '\n' ∉ joinWith ',' (t.headers.map String.data) :=
    not_mem_joinWith '\n' ',' (by decide) _ (by
      intro p hp
      obtain ⟨s, hs, rfl⟩ := List.mem_map.mp hp
      exact (hhead s hs).2.1)
  have hjr : '\r' ∉ joinWith ',' (t.headers.map String.data) :=
    not_mem_joinWith '\r' ',' (by decide) _ (by
      intro p hp
      obtain ⟨s, hs, rfl⟩ := List.mem_map.mp hp
      exact (hhead s hs).2.2)
  have hsplit : splitComma (String.mk (joinWith ',' (t.headers.map String.data)))
      = t.headers := by
    unfold splitComma
    rw [data_mk, joinWith_split ',' _ (by simpa using hh) (by
      intro p hp
      obtain ⟨s, hs, rfl⟩ := List.mem_map.mp hp
      exact (hhead s hs).1), List.map_map]
    exact (List.map_congr_left fun s _ => mk_data s).trans (List.map_id _)
  cases hrs : t.records with
  | nil =>
    have hsave : t.saveString
        = String.mk (joinWith ',' (t.headers.map String.data) ++ ['\n']) := by
      unfold Todos.saveString Todos.to_vec
      rw [hrs]
      rfl
    have hlines : rustLines t.saveString
        = [String.mk (joinWith ',' (t.headers.map String.data))] := by
      rw [hsave]
      unfold rustLines
      simp only [data_mk]
      rw [show (joinWith ',' (t.headers.map String.data) ++ ['\n'])
          = joinWith ',' (t.headers.map String.data) ++ '\n' :: [] from rfl]
      rw [splitOnChar_append_cons '\n' _ [] hjn]
      rw [show splitOnChar '\n' ([] : List Char) = [[]] from rfl]
      simp [stripCR_no_cr _ hjr]
    unfold Todos.readString
    rw [hlines, if_neg (by simp)]
    simp only [List.head?_cons]
    rw [hsplit, ← hrs]
  | cons r0 rs0 =>
    have hpieces : t.saveString = String.mk (joinWith '\n'
        (joinWith ',' (t.headers.map String.data)
          :: (t.records.map Todo.to_csv).map String.data)) := by
      unfold Todos.saveString Todos.to_vec
      rw [hrs]
      rfl
    have hlines : rustLines t.saveString
        = String.mk (joinWith ',' (t.headers.map String.data))
          :: t.records.map Todo.to_csv := by
      rw [hpieces, rustLines_join _ (by simp) ?hlast ?hclean]
      · rw [List.map_cons, List.map_map]
        congr 1
        exact (List.map_congr_left fun s _ => mk_data _).trans (List.map_id _)
      case hlast =>
        rw [hrs]
        intro hcon
        simp only [List.map_cons] at hcon
        rw [List.getLast?_cons_cons] at hcon
        obtain ⟨hne2, heq⟩ := List.mem_getLast?_eq_getLast (Option.mem_def.mpr hcon)
        have hmem := List.getLast_mem hne2
        rw [← heq] at hmem
        rcases List.mem_cons.mp hmem with heq0 | hmem2
        · exact to_csv_ne_nil r0 heq0.symm
        · obtain ⟨s, hs, hdata⟩ := List.mem_map.mp hmem2
          obtain ⟨r, hr, rfl⟩ := List.mem_map.mp hs
          exact to_csv_ne_nil r hdata
      case hclean =>
        intro p hp
        rcases List.mem_cons.mp hp with rfl | hp
        · exact ⟨hjn, hjr⟩
        · obtain ⟨s, hs, rfl⟩ := List.mem_map.mp hp
          obtain ⟨r, hr, rfl⟩ := List.mem_map.mp hs
          obtain ⟨⟨_, hidn, hidr⟩, ⟨_, hdn, hdr2⟩, ⟨_, htn, htr⟩, ⟨_, hun, hur⟩,
            ⟨_, hdon, hdor⟩⟩ := hrec r hr
          rw [show (Todo.to_csv r).data
              = joinWith ','
                  [r.id.data, r.date.data, r.title.data, r.url.data, r.done.data]
            from rfl]
          constructor
          · exact not_mem_joinWith '\n' ',' (by decide) _ (by
              intro p hp
              simp only [List.mem_cons, List.not_mem_nil, or_false] at hp
              rcases hp with rfl | rfl | rfl | rfl | rfl <;> assumption)
          · exact not_mem_joinWith '\r' ',' (by decide) _ (by
              intro p hp
              simp only [List.mem_cons, List.not_mem_nil, or_false] at hp
              rcases hp with rfl | rfl | rfl | rfl | rfl <;> assumption)
    unfold Todos.readString
    rw [hlines, if_pos (by simp [hrs])]
    rw [show (String.mk (joinWith ',' (t.headers.map String.data))
        :: t.records.map Todo.to_csv).drop 1 = t.records.map Todo.to_csv from rfl]
    rw [parseRecords_to_csv _ hrec]
    simp only [List.head?_cons]
    rw [hsplit]

/-- Counterexample for C2 as stated: in `sampleNewline` no header and no
record field contains the comma delimiter, yet the round trip does not
return the list — the newline inside the title splits one record line
into two short lines and `read` fails. -/
theorem save_read_roundtrip_counterexample :
    (∀ s ∈ sampleNewline.headers, ',' ∉ s.data)
    ∧ (∀ r ∈ sampleNewline.records, ',' ∉ r.id.data ∧ ',' ∉ r.date.data ∧
        ',' ∉ r.title.data ∧ ',' ∉ r.url.data ∧ ',' ∉ r.done.data)
    ∧ Todos.readString (sampleNewline.saveString) ≠ some sampleNewline :=
  ⟨by decide, by decide, by decide⟩

/-- Witness for C2 (amended): the two-task example list round-trips
through `save` and `read` unchanged. -/
theorem save_read_roundtrip_witness :
    Todos.readString (sampleTodos.saveString) = some sampleTodos :=
  save_read_roundtrip sampleTodos (by decide) (by decide) (by decide)
